import Mathlib

/-! Verification of `controller/pkg/util/util.go` (kubebench)

A shallow embedding of the three routines of package `util`:

* `Pformat`    : pretty formatting of a value (`util.go`, lines 32-43);
* `RandString` : the random identifier generator (`util.go`, lines 45-75);
* `Run`        : running a subprocess (`util.go`, lines 77-104).

Go strings and byte slices are finite sequences of bytes, so both are lists of
`UInt8` here.  The shared entropy source, the operating system and the logger
are explicit: every routine returns its result together with what it did to
them.
-/

namespace Util

/-! ## Go strings -/

/-- A Go `string` (and a `[]byte`): a finite sequence of bytes. -/
abbrev GoString := List UInt8

/-- The bytes of a string literal of the source (all literals used are ASCII). -/
def lit (s : String) : GoString := s.toList.map (fun c => UInt8.ofNat c.toNat)

/-! ## The entropy source -/

/-- The package variable `src` (a `rand.Source`).  A deterministic generator is
the stream of values its successive `Int63` calls return, together with the
number of calls already made. -/
structure Source where
  /-- The raw value behind the `k`-th call. -/
  draws : Nat → Nat
  /-- Number of `Int63` calls made so far. -/
  pos : Nat

/-- The method `src.Int63()`: a non-negative 63-bit value; the source advances by one draw. -/
def Source.Int63 (s : Source) : Nat × Source :=
  (s.draws s.pos % 2 ^ 63, { s with pos := s.pos + 1 })

/-! ## `RandString` -/

/-- The constant `letterBytes`. -/
def letterBytes : GoString := lit "0123456789abcdefghijklmnopqrstuvwxyz"

/-- The constant `letterIdxBits`: 6 bits to represent a letter index. -/
def letterIdxBits : Nat := 6

/-- The constant `letterIdxMask`: all 1-bits, as many as `letterIdxBits`. -/
def letterIdxMask : Nat := 1 <<< letterIdxBits - 1

/-- The constant `letterIdxMax`: number of letter indices fitting in 63 bits. -/
def letterIdxMax : Nat := 63 / letterIdxBits

/-- The variables of the `for` loop of `RandString`, with the buffer `b` and the
entropy source. -/
structure LoopState where
  i : Int
  cache : Nat
  remain : Nat
  b : List UInt8
  src : Source

/-- The symbol written for the index `idx` of line 66, if any: the guard
`idx < len(letterBytes)` and the read `letterBytes[idx]` of line 67. -/
def letterAt (idx : Nat) : Option UInt8 :=
  if idx < letterBytes.length then letterBytes.get? idx else none

/-- Lines 63-65: when no index is left in `cache`, take a new draw and reset `remain`. -/
def refill (st : LoopState) : LoopState :=
  if st.remain = 0 then
    { st with cache := st.src.Int63.1, remain := letterIdxMax, src := st.src.Int63.2 }
  else st

/-- One execution of the loop body (lines 63-71): the refill, then the test of the low
six bits of `cache` (lines 66-69), then the shift and the decrement (lines 70-71).  The
write `b[i]` is always in range when the body runs (`body_inv`), so no index panic is
modelled. -/
def body (st : LoopState) : LoopState :=
  let st := refill st
  match letterAt (st.cache &&& letterIdxMask) with
  | some c =>
      { st with i := st.i - 1, b := st.b.set st.i.toNat c,
                cache := st.cache >>> letterIdxBits, remain := st.remain - 1 }
  | none =>
      { st with cache := st.cache >>> letterIdxBits, remain := st.remain - 1 }

/-- The `for` loop of lines 62-72: the condition `i >= 0` is tested before each
execution of the body.  `fuel` bounds the number of executions of the body;
`none` means the loop is still running when the fuel is spent. -/
def loop : Nat → LoopState → Option LoopState
  | 0, st => if st.i < 0 then some st else none
  | fuel + 1, st => if st.i < 0 then some st else loop fuel (body st)

/-- The state in which the loop is entered: `b := make([]byte, n)` and the init
clause `i, cache, remain := n-1, src.Int63(), letterIdxMax`. -/
def RandString.init (src : Source) (n : Nat) : LoopState :=
  { i := (n : Int) - 1, cache := src.Int63.1, remain := letterIdxMax,
    b := List.replicate n 0, src := src.Int63.2 }

/-- The function `RandString(n)` for a length `n ≥ 0`, run on the entropy source `src`
with at most `fuel` executions of the loop body: the returned string and the source after
the call. -/
def RandString (fuel : Nat) (src : Source) (n : Nat) : Option (GoString × Source) :=
  (loop fuel (RandString.init src n)).map (fun st => (st.b, st.src))


/-! ## The reference definition of `RandString` -/

/-- The `k`-th successive draw `d_k` the source `src` yields from its present state on. -/
def draw (src : Source) (k : Nat) : Nat := src.draws (src.pos + k) % 2 ^ 63

/-- The candidate sequence `c(10k+j) = (d_k >> 6j) & 63`: ten low-order-first 6-bit
groups per draw. -/
def candidate (src : Source) (m : Nat) : Nat := (draw src (m / 10) >>> (6 * (m % 10))) &&& 63

/-- The values below 36 among the first `N` terms of a sequence `u`, in order. -/
def acceptedOf (u : Nat → Nat) (N : Nat) : List Nat :=
  ((List.range N).map u).filter (fun v => decide (v < 36))

/-- The accepted candidates `a_0, a_1, ...` found among the first `N` candidates. -/
def accepted (src : Source) (N : Nat) : List Nat := acceptedOf (candidate src) N

/-- Alphabet symbol number `a`. -/
def symbol (a : Nat) : UInt8 := letterBytes.getD a 0

/-- The reference string of length `n`: position `i` holds alphabet symbol number
`a(n-1-i)`, the accepted candidates being looked up among the first `N` candidates. -/
def referenceString (src : Source) (N n : Nat) : GoString :=
  (List.range n).map (fun i => symbol ((accepted src N).getD (n - 1 - i) 0))

/-- The candidates a loop state is still to examine: the groups left in `cache`, then
the groups of the draws to come. -/
def upcoming (st : LoopState) (j : Nat) : Nat :=
  if j < st.remain then (st.cache >>> (6 * j)) &&& 63 else candidate st.src (j - st.remain)

/-- A byte is a lowercase alphanumeric ASCII symbol `0-9a-z`. -/
def isLowerAlnum (c : UInt8) : Bool :=
  (48 ≤ c.toNat && c.toNat ≤ 57) || (97 ≤ c.toNat && c.toNat ≤ 122)

/-- Invariant of the loop for a buffer of length `n`: the cursor `i` stays in
`-1 .. n-1` and every position after the cursor holds a symbol of the alphabet. -/
def Inv (n : Nat) (st : LoopState) : Prop :=
  st.b.length = n ∧ -1 ≤ st.i ∧ st.i < n ∧
    ∀ k : Nat, st.i < k → k < n → ∃ c ∈ letterBytes, st.b[k]? = some c

/-- The source every draw of which is `2^63 - 1`: each of its 6-bit groups is 63. -/
def allOnes : Source := { draws := fun _ => 2 ^ 63 - 1, pos := 0 }

/-- The source every draw of which is `0`: each of its 6-bit groups is 0. -/
def allZeros : Source := { draws := fun _ => 0, pos := 0 }

/-- A source whose two first draws are 3440579354231278675 and 608747136543856411 (the
two first outputs of `rand.NewSource(42)`); its twenty first candidates hold eleven
accepted and nine rejected values. -/
def seed42 : Source :=
  { draws := fun k => [3440579354231278675, 608747136543856411].getD k 0, pos := 0 }

/-- The generator behind `rand.NewSource` (line 46), which is library code of `math/rand`:
an additive lagged Fibonacci generator with lags 607 and 273.  Each raw 64-bit output is
the sum, modulo `2^64`, of the outputs 607 calls and 273 calls earlier, and `Int63` keeps
its low 63 bits.  A source is such a generator when its draws obey that recurrence. -/
def Source.additive (s : Source) : Prop :=
  ∀ k, s.draws (k + 607) % 2 ^ 64 = (s.draws k + s.draws (k + 334)) % 2 ^ 64

/-- The outputs of the additive lagged Fibonacci generator whose 607 first outputs are
`seed 0, ..., seed 606`. -/
def lagged (seed : Nat → Nat) (k : Nat) : Nat :=
  if k < 607 then seed k else (lagged seed (k - 607) + lagged seed (k - 273)) % 2 ^ 64
termination_by k
decreasing_by all_goals omega

/-- A generator whose 607 first outputs are all `2^63 - 1`, seen before its first draw. -/
def laggedOnes : Source := { draws := lagged (fun _ => 2 ^ 63 - 1), pos := 0 }

/-- Number of consecutive draws of an additive source among which one has its low 6-bit
group below 36. -/
def window : Nat := 607 * 28 + 1

/-! ## Errors and the logger -/

/-- A Go `error` value: one made by `errors.New`, or one returned by a library. -/
inductive GoError where
  | errorString (text : GoString)
  | library (text : GoString)
  deriving DecidableEq

/-- The method `Error()` of an error: its text. -/
def GoError.Error : GoError → GoString
  | .errorString text => text
  | .library text => text

/-- The function `errors.New`. -/
def errors.New (text : GoString) : GoError := .errorString text

/-- Severities of the logger used by the package. -/
inductive Level where
  | info
  | warning
  | error
  deriving DecidableEq

/-- One line handed to the logger. -/
structure LogEntry where
  level : Level
  msg : GoString
  deriving DecidableEq

/-! ## `Pformat` -/

/-- A value of type `interface{}`, as far as `Pformat` observes it: the outcome of the
type assertion `value.(string)`, what `json.MarshalIndent(value, "", "  ")` returns for
it, and what `fmt.Sprintf("%v", value)` returns for it. -/
structure Value where
  asString : Option GoString
  marshalIndent : Except GoError GoString
  sprintV : GoString

/-- The function `Pformat` (lines 33-43): the returned string and the lines logged. -/
def Pformat (value : Value) : GoString × List LogEntry :=
  match value.asString with
  | some s => (s, [])
  | none =>
    match value.marshalIndent with
    | .error err =>
        (value.sprintV,
          [{ level := .warning,
             msg := lit "Couldn't pretty format " ++ value.sprintV ++ lit ", error: " ++ err.Error }])
    | .ok valueJSON => (valueJSON, [])

/-- A value that is not a string, whose `MarshalJSON` method fails and whose `String`
method returns the empty string. -/
def silentValue : Value :=
  { asString := none, marshalIndent := .error (.library (lit "json: error calling MarshalJSON")),
    sprintV := [] }

/-! ## `Run` -/

/-- The executable of a command, the field `Path` of `exec.Cmd`: either a path used as
given, or the outcome of the library's `exec.LookPath(name)` for a bare name, that is the
executable found for `name` on the search path (such as `/bin/ls` for `ls`), and `name`
itself, with the lookup error kept for `cmd.Run()`, when none is found. -/
inductive Program where
  | path (name : GoString)
  | lookPath (name : GoString)
  deriving DecidableEq

/-- The fields of `exec.Cmd` that `Run` sets.  An empty `Dir` means that the command runs
in the calling process's current directory. -/
structure Cmd where
  Path : Program
  Args : List GoString
  Env : List GoString
  Dir : GoString
  deriving DecidableEq

/-- The library function `filepath.Base` (with `/` as the separator): the last element of
the path, trailing separators removed; `.` for the empty path and `/` for a path of
separators only. -/
def filepath.Base (path : GoString) : GoString :=
  if path = [] then lit "."
  else
    let stripped := (path.reverse.dropWhile (fun c => c == 47)).reverse
    let last := (stripped.reverse.takeWhile (fun c => c != 47)).reverse
    if last = [] then lit "/" else last

/-- The library function `exec.Command(name, arg...)`: the argument vector is
`name, arg...`, and the executable is `name`, looked up on the search path when `name`
has no directory part (`filepath.Base(name) == name`). -/
def exec.Command (name : GoString) (arg : List GoString) : Cmd :=
  { Path := if filepath.Base name = name then .lookPath name else .path name,
    Args := name :: arg, Env := [], Dir := [] }

/-- The key of an environment entry `KEY=VALUE`: the bytes before the first `=`, if any. -/
def envKey (kv : GoString) : Option GoString :=
  if kv.contains 61 then some (kv.takeWhile (fun c => c != 61)) else none

/-- The library's treatment of `cmd.Env` when the subprocess is started (os/exec: "if Env
contains duplicate environment keys, only the last value in the slice for each duplicate
key is used"): an entry is dropped when a later entry has the same key.  Entries are
read as `KEY=VALUE`; an entry without `=` has no key and is kept. -/
def dedupEnv : List GoString → List GoString
  | [] => []
  | kv :: rest =>
      if (envKey kv).isSome && rest.any (fun kv' => envKey kv' == envKey kv) then
        dedupEnv rest
      else kv :: dedupEnv rest

/-- The environment the subprocess of a command is started with (the library method
`environ` of `exec.Cmd`, for a command whose `Env` was set). -/
def Cmd.environ (cmd : Cmd) : List GoString := dedupEnv cmd.Env

/-- What one `cmd.Run()` yields: its error, if any, and what was written to the buffers
attached to `cmd.Stdout` and `cmd.Stderr`. -/
structure Execution where
  err : Option GoError
  stdout : List UInt8
  stderr : List UInt8

/-- The operating system as `Run` sees it: `os.Environ()` and the outcome of running a
command. -/
structure System where
  Environ : List GoString
  run : Cmd → Execution

/-- The function `strings.Join`. -/
def strings.Join (elems : List GoString) (sep : GoString) : GoString :=
  List.intercalate sep elems

/-- What a call of `Run` returns and does: the returned bytes (`none` is the nil slice),
the returned error (`none` is nil), the commands it executed and the lines logged. -/
structure RunResult where
  output : Option (List UInt8)
  err : Option GoError
  spawned : List Cmd
  log : List LogEntry

/-- The command `Run` builds for the program `name` with arguments `args` (lines 85-89). -/
def Run.build (sys : System) (name : GoString) (args : List GoString) (dir : GoString)
    (env : List GoString) : Cmd :=
  let cmd := exec.Command name args
  let cmd := { cmd with Env := sys.Environ ++ env }
  if dir ≠ [] then { cmd with Dir := dir } else cmd

/-- The function `Run` (lines 78-104). -/
def Run (sys : System) (command : List GoString) (dir : GoString) (env : List GoString) :
    RunResult :=
  let log0 : List LogEntry :=
    [{ level := .info, msg := lit "Execute command: " ++ strings.Join command (lit " ") }]
  match command with
  | [] =>
      { output := none, err := some (errors.New (lit "Command cannot be empty.")),
        spawned := [], log := log0 }
  | name :: args =>
      let cmd := Run.build sys name args dir env
      let r := sys.run cmd
      match r.err with
      | some err =>
          { output := none, err := some err, spawned := [cmd],
            log := log0 ++
              [{ level := .error, msg := lit "Command failed: " ++ err.Error },
               { level := .error, msg := lit "Subprocess error:\n" ++ r.stderr },
               { level := .info, msg := lit "Subprocess output:\n" ++ r.stdout }] }
      | none =>
          { output := some r.stdout, err := none, spawned := [cmd],
            log := log0 ++ [{ level := .info, msg := lit "Subprocess output:\n" ++ r.stdout }] }

/-- A system with the inherited environment `PATH=/bin`, `FOO=1` on which every command
succeeds and prints nothing. -/
def fooSystem : System :=
  { Environ := [lit "PATH=/bin", lit "FOO=1"],
    run := fun _ => { err := none, stdout := [], stderr := [] } }

/-- A system with the environment `PATH=/bin` on which every command fails, printing "no"
on standard error. -/
def failingSystem : System :=
  { Environ := [lit "PATH=/bin"],
    run := fun _ => { err := some (.library (lit "exit status 1")), stdout := [],
                      stderr := lit "no" } }

/-! ## Facts about the alphabet and the constants -/

theorem letterBytes_length : letterBytes.length = 36 := by decide

theorem letterIdxMask_eq : letterIdxMask = 63 := by decide

theorem letterIdxMax_eq : letterIdxMax = 10 := by decide

theorem letterBytes_alnum : ∀ c ∈ letterBytes, isLowerAlnum c = true := by decide

theorem letterAt_some {idx : Nat} {c : UInt8} (h : letterAt idx = some c) :
    idx < 36 ∧ letterBytes[idx]? = some c ∧ c ∈ letterBytes := by
  unfold letterAt at h
  split at h
  · rename_i hlt
    rw [letterBytes_length] at hlt
    simp only [List.get?_eq_getElem?] at h
    exact ⟨hlt, h, List.getElem?_mem h⟩
  · cases h

theorem letterAt_none {idx : Nat} (h : letterAt idx = none) : 36 ≤ idx := by
  unfold letterAt at h
  split at h
  · rename_i hlt
    simp only [List.get?_eq_getElem?] at h
    rw [List.getElem?_eq_none_iff] at h
    omega
  · rw [letterBytes_length] at *; omega

/-! ## The loop invariant: the filled part of the buffer holds alphabet symbols -/

theorem init_inv (src : Source) (n : Nat) : Inv n (RandString.init src n) := by
  refine ⟨by simp [RandString.init], by simp [RandString.init], by simp [RandString.init], ?_⟩
  intro k hk hkn
  simp only [RandString.init] at hk
  omega

theorem refill_i (st : LoopState) : (refill st).i = st.i := by
  unfold refill; split <;> rfl

theorem refill_b (st : LoopState) : (refill st).b = st.b := by
  unfold refill; split <;> rfl

theorem body_some {st : LoopState} {c : UInt8}
    (h : letterAt ((refill st).cache &&& letterIdxMask) = some c) :
    body st = { refill st with i := st.i - 1, b := st.b.set st.i.toNat c,
                               cache := (refill st).cache >>> letterIdxBits,
                               remain := (refill st).remain - 1 } := by
  simp only [body, h, refill_i, refill_b]

theorem body_none {st : LoopState}
    (h : letterAt ((refill st).cache &&& letterIdxMask) = none) :
    body st = { refill st with cache := (refill st).cache >>> letterIdxBits,
                               remain := (refill st).remain - 1 } := by
  simp only [body, h]

theorem body_inv {n : Nat} {st : LoopState} (h : Inv n st) (hi : 0 ≤ st.i) :
    Inv n (body st) := by
  obtain ⟨hlen, hlo, hhi, hfill⟩ := h
  cases hc : letterAt ((refill st).cache &&& letterIdxMask) with
  | some c =>
    obtain ⟨-, -, hmem⟩ := letterAt_some hc
    rw [body_some hc]
    refine ⟨by simp [hlen], by simp; omega, by simp; omega, ?_⟩
    intro k hk hkn
    simp only at hk
    by_cases hki : st.i.toNat = k
    · refine ⟨c, hmem, ?_⟩
      simp only
      rw [hki, List.getElem?_set_self (by omega)]
    · simp only
      rw [List.getElem?_set_ne hki]
      exact hfill k (by omega) hkn
  | none =>
    rw [body_none hc]
    exact ⟨by simp [refill_b, hlen], by simp [refill_i, hlo], by simp [refill_i, hhi],
      by simpa [refill_i, refill_b] using hfill⟩

theorem loop_inv {n : Nat} : ∀ (fuel : Nat) (st st' : LoopState),
    Inv n st → loop fuel st = some st' → Inv n st' ∧ st'.i < 0 := by
  intro fuel
  induction fuel with
  | zero =>
    intro st st' h hl
    simp only [loop] at hl
    split at hl
    · cases hl; exact ⟨h, by assumption⟩
    · cases hl
  | succ f ih =>
    intro st st' h hl
    simp only [loop] at hl
    split at hl
    · cases hl; exact ⟨h, by assumption⟩
    · exact ih (body st) st' (body_inv h (by omega)) hl


/-! ## The candidates a loop state examines -/

theorem candidate_unfold (src : Source) (j : Nat) :
    candidate src j =
      if j < 10 then (src.Int63.1 >>> (6 * j)) &&& 63 else candidate src.Int63.2 (j - 10) := by
  unfold candidate draw Source.Int63
  split
  · rename_i h
    have h1 : j / 10 = 0 := by omega
    have h2 : j % 10 = j := by omega
    simp [h1, h2]
  · rename_i h
    have h1 : j / 10 = (j - 10) / 10 + 1 := by omega
    have h2 : j % 10 = (j - 10) % 10 := by omega
    have h3 : src.pos + 1 + (j - 10) / 10 = src.pos + ((j - 10) / 10 + 1) := by omega
    simp only [h1, h2, h3]

theorem upcoming_init (src : Source) (n j : Nat) :
    upcoming (RandString.init src n) j = candidate src j := by
  rw [candidate_unfold]
  simp [upcoming, RandString.init, letterIdxMax_eq]

theorem upcoming_refill (st : LoopState) (j : Nat) :
    upcoming (refill st) j = upcoming st j := by
  unfold refill
  split
  · rename_i h
    simp only [upcoming, h, letterIdxMax_eq, Nat.not_lt_zero, if_false, Nat.sub_zero]
    rw [candidate_unfold st.src j]
  · rfl

theorem refill_remain_pos (st : LoopState) : 0 < (refill st).remain := by
  unfold refill
  split
  · simp [letterIdxMax_eq]
  · omega

theorem refill_test (st : LoopState) :
    (refill st).cache &&& letterIdxMask = upcoming st 0 := by
  rw [← upcoming_refill, letterIdxMask_eq]
  simp [upcoming, refill_remain_pos]

theorem upcoming_body (st : LoopState) (j : Nat) :
    upcoming (body st) j = upcoming st (j + 1) := by
  have hpos := refill_remain_pos st
  rw [← upcoming_refill st (j + 1)]
  have key : ∀ st' : LoopState, st'.cache = (refill st).cache >>> letterIdxBits →
      st'.remain = (refill st).remain - 1 → st'.src = (refill st).src →
      upcoming st' j = upcoming (refill st) (j + 1) := by
    intro st' h1 h2 h3
    simp only [upcoming, h1, h2, h3, letterIdxBits]
    by_cases hj : j + 1 < (refill st).remain
    · have hj' : j < (refill st).remain - 1 := by omega
      rw [if_pos hj, if_pos hj', ← Nat.shiftRight_add]
      congr 2
      omega
    · have hj' : ¬ j < (refill st).remain - 1 := by omega
      rw [if_neg hj, if_neg hj']
      congr 1
      omega
  cases hc : letterAt ((refill st).cache &&& letterIdxMask) with
  | some c => rw [body_some hc]; exact key _ rfl rfl rfl
  | none => rw [body_none hc]; exact key _ rfl rfl rfl

theorem acceptedOf_succ (u : Nat → Nat) (N : Nat) :
    acceptedOf u (N + 1) =
      (if u 0 < 36 then [u 0] else []) ++ acceptedOf (fun j => u (j + 1)) N := by
  unfold acceptedOf
  rw [List.range_succ_eq_map, List.map_cons, List.map_map, List.filter_cons]
  split <;> simp_all [Function.comp_def]

theorem acceptedOf_zero (u : Nat → Nat) : acceptedOf u 0 = [] := rfl

/-! ## What the loop computes -/

theorem refill_count (st : LoopState) :
    1 ≤ (refill st).remain ∧ (st.remain ≤ 10 → (refill st).remain ≤ 10) ∧
      10 * (refill st).src.pos + st.remain = 10 * st.src.pos + (refill st).remain ∧
      (refill st).src.draws = st.src.draws := by
  unfold refill
  split
  · rename_i h
    simp only [letterIdxMax_eq, Source.Int63, h]
    refine ⟨by omega, fun _ => by omega, by omega, trivial⟩
  · rename_i h
    exact ⟨by omega, fun h' => h', rfl, rfl⟩

theorem body_count (st : LoopState) (hr : st.remain ≤ 10) :
    (body st).remain ≤ 9 ∧
      10 * (body st).src.pos + st.remain = 10 * st.src.pos + (body st).remain + 1 ∧
      (body st).src.draws = st.src.draws := by
  obtain ⟨h1, h2, h3, h4⟩ := refill_count st
  have h2 := h2 hr
  cases hc : letterAt ((refill st).cache &&& letterIdxMask) with
  | some c => rw [body_some hc]; simp only; exact ⟨by omega, by omega, h4⟩
  | none => rw [body_none hc]; simp only; exact ⟨by omega, by omega, h4⟩

theorem drop_set_self {α : Type} (a : α) : ∀ (l : List α) (n : Nat), n < l.length →
    (l.set n a).drop n = a :: l.drop (n + 1) := by
  intro l
  induction l with
  | nil => intro n h; simp at h
  | cons x xs ih =>
    intro n h
    cases n with
    | zero => simp
    | succ m =>
      simp only [List.length_cons, Nat.add_lt_add_iff_right] at h
      simpa using ih m h

theorem symbol_of_letterAt {v : Nat} {c : UInt8} (h : letterAt v = some c) : symbol v = c := by
  obtain ⟨-, h2, -⟩ := letterAt_some h
  simp [symbol, List.getD, h2]

theorem letterAt_lt {v : Nat} (h : v < 36) : ∃ c, letterAt v = some c := by
  cases hc : letterAt v with
  | some c => exact ⟨c, rfl⟩
  | none => have := letterAt_none hc; omega

theorem letterAt_of_lt {v : Nat} (h : v < 36) : letterAt v = some (symbol v) := by
  obtain ⟨c, hc⟩ := letterAt_lt h
  rw [hc, symbol_of_letterAt hc]

theorem letterAt_of_ge {v : Nat} (h : 36 ≤ v) : letterAt v = none := by
  cases hc : letterAt v with
  | none => rfl
  | some c => have := (letterAt_some hc).1; omega

/-- The loop, entered with `k` positions still to fill and with enough fuel to meet `k`
accepted candidates, returns; it writes the first `k` accepted candidates from position
`k-1` down to position `0`, examines exactly the `M` candidates up to the `k`-th accepted
one, and has then taken one draw for every ten candidates beyond those left in `cache`. -/
theorem loop_spec : ∀ (N : Nat) (st : LoopState) (k : Nat),
    st.i = (k : Int) - 1 → k ≤ st.b.length →
    k ≤ (acceptedOf (upcoming st) N).length → st.remain ≤ 10 →
    ∃ (st' : LoopState) (M : Nat), loop N st = some st' ∧
      st'.b = (((acceptedOf (upcoming st) N).take k).reverse.map symbol) ++ st.b.drop k ∧
      M ≤ N ∧ (acceptedOf (upcoming st) M).length = k ∧
      (∀ M', M' < M → (acceptedOf (upcoming st) M').length < k) ∧
      10 * st'.src.pos + st.remain = 10 * st.src.pos + st'.remain + M ∧
      (st.remain ≤ 9 → st'.remain ≤ 9) ∧ (1 ≤ M → st'.remain ≤ 9) ∧
      st'.src.draws = st.src.draws := by
  intro N
  induction N with
  | zero =>
    intro st k hi hk hacc hr
    have hk0 : k = 0 := by simpa [acceptedOf_zero] using hacc
    subst hk0
    refine ⟨st, 0, ?_, by simp, le_refl _, rfl, by intro M' h; omega, by omega, fun h => h,
      by intro h; omega, rfl⟩
    simp [loop, hi]
  | succ N ih =>
    intro st k hi hk hacc hr
    cases k with
    | zero =>
      refine ⟨st, 0, ?_, by simp, Nat.zero_le _, rfl, by intro M' h; omega, by omega,
        fun h => h, by intro h; omega, rfl⟩
      simp [loop, hi]
    | succ k =>
      have hi0 : ¬ st.i < 0 := by omega
      have hloop : loop (N + 1) st = loop N (body st) := by simp [loop, hi0]
      have hup : upcoming (body st) = fun j => upcoming st (j + 1) :=
        funext (upcoming_body st)
      have hsucc := fun n => acceptedOf_succ (upcoming st) n
      obtain ⟨hb9, hbpos, hbdraws⟩ := body_count st hr
      have htoNat : st.i.toNat = k := by omega
      cases hc : letterAt ((refill st).cache &&& letterIdxMask) with
      | some c =>
        have hlt : upcoming st 0 < 36 := by
          rw [← refill_test]; exact (letterAt_some hc).1
        have hsym : symbol (upcoming st 0) = c := by
          rw [← refill_test]; exact symbol_of_letterAt hc
        have hbody := body_some hc
        have hbi : (body st).i = (k : Int) - 1 := by rw [hbody]; simp only; omega
        have hbb : (body st).b = st.b.set k c := by rw [hbody, htoNat]
        have hacc' : k ≤ (acceptedOf (upcoming (body st)) N).length := by
          rw [hsucc N, if_pos hlt, ← hup] at hacc
          simpa using hacc
        obtain ⟨st', M, h1, h2, h3, h4, h5, h6, h7, h8, h9⟩ :=
          ih (body st) k hbi (by rw [hbb]; simp; omega) hacc' (by omega)
        refine ⟨st', M + 1, by rw [hloop, h1], ?_, by omega, ?_, ?_, by omega,
          fun _ => h7 hb9, fun _ => h7 hb9, by rw [h9, hbdraws]⟩
        · rw [h2, hsucc N, if_pos hlt, ← hup, hbb, drop_set_self c st.b k (by omega)]
          simp [hsym]
        · rw [hsucc M, if_pos hlt, ← hup]; simp [h4]
        · intro M' hM'
          cases M' with
          | zero => simp [acceptedOf_zero]
          | succ m =>
            rw [hsucc m, if_pos hlt, ← hup]
            have := h5 m (by omega)
            simp; omega
      | none =>
        have hge : ¬ upcoming st 0 < 36 := by
          rw [← refill_test]; have := letterAt_none hc; omega
        have hbody := body_none hc
        have hbi : (body st).i = ((k + 1 : Nat) : Int) - 1 := by
          rw [hbody]; simp only [refill_i]; exact hi
        have hbb : (body st).b = st.b := by rw [hbody]; simp only [refill_b]
        have hacc' : k + 1 ≤ (acceptedOf (upcoming (body st)) N).length := by
          rw [hsucc N, if_neg hge, ← hup] at hacc
          simpa using hacc
        obtain ⟨st', M, h1, h2, h3, h4, h5, h6, h7, h8, h9⟩ :=
          ih (body st) (k + 1) hbi (by rw [hbb]; exact hk) hacc' (by omega)
        refine ⟨st', M + 1, by rw [hloop, h1], ?_, by omega, ?_, ?_, by omega,
          fun _ => h7 hb9, fun _ => h7 hb9, by rw [h9, hbdraws]⟩
        · rw [h2, hsucc N, if_neg hge, ← hup, hbb]
          simp
        · rw [hsucc M, if_neg hge, ← hup]; simpa using h4
        · intro M' hM'
          cases M' with
          | zero => simp [acceptedOf_zero]
          | succ m =>
            rw [hsucc m, if_neg hge, ← hup]
            have := h5 m (by omega)
            simpa using this

/-! ## `RandString`: running to completion -/

theorem acceptedOf_add (u : Nat → Nat) (N d : Nat) :
    acceptedOf u (N + d) = acceptedOf u N ++ acceptedOf (fun j => u (N + j)) d := by
  unfold acceptedOf
  rw [List.range_add, List.map_append, List.filter_append, List.map_map]
  rfl

theorem acceptedOf_take (u : Nat → Nat) {n N fuel : Nat} (h : n ≤ (acceptedOf u N).length)
    (hf : N ≤ fuel) : (acceptedOf u fuel).take n = (acceptedOf u N).take n := by
  obtain ⟨d, rfl⟩ := Nat.exists_eq_add_of_le hf
  rw [acceptedOf_add, List.take_append_of_le_length h]

theorem acceptedOf_length_mono (u : Nat → Nat) {N fuel : Nat} (hf : N ≤ fuel) :
    (acceptedOf u N).length ≤ (acceptedOf u fuel).length := by
  obtain ⟨d, rfl⟩ := Nat.exists_eq_add_of_le hf
  rw [acceptedOf_add, List.length_append]
  omega

theorem init_upcoming (src : Source) (n : Nat) :
    upcoming (RandString.init src n) = candidate src :=
  funext (upcoming_init src n)

/-- With at least `n` accepted candidates among the first `N`, and fuel for `N` executions
of the body, `RandString(n)` returns the first `n` accepted candidates written backwards,
having examined `M` candidates, `M` least with `n` accepted ones, and taken
`max 1 ⌈M/10⌉` draws. -/
theorem RandString_run (src : Source) (n N fuel : Nat) (h : n ≤ (accepted src N).length)
    (hf : N ≤ fuel) :
    ∃ (src' : Source) (M : Nat),
      RandString fuel src n = some (((accepted src N).take n).reverse.map symbol, src') ∧
      M ≤ N ∧ (accepted src M).length = n ∧
      (∀ M', M' < M → (accepted src M').length < n) ∧
      src'.pos = src.pos + max 1 ((M + 9) / 10) ∧ src'.draws = src.draws := by
  unfold accepted at h ⊢
  have hlen : n ≤ (acceptedOf (upcoming (RandString.init src n)) fuel).length := by
    rw [init_upcoming]; exact le_trans h (acceptedOf_length_mono _ hf)
  obtain ⟨st', M, h1, h2, -, h4, h5, h6, -, h8, h9⟩ :=
    loop_spec fuel (RandString.init src n) n rfl (by simp [RandString.init]) hlen
      (by simp [RandString.init, letterIdxMax_eq])
  rw [init_upcoming] at h2 h4 h5
  have hMN : M ≤ N := by
    by_contra hlt
    have := h5 N (by omega)
    omega
  refine ⟨st'.src, M, ?_, hMN, h4, h5, ?_, ?_⟩
  · rw [RandString, h1, Option.map_some', h2, acceptedOf_take _ h hf]
    simp [RandString.init]
  · simp only [RandString.init, Source.Int63, letterIdxMax_eq] at h6
    by_cases hM : 1 ≤ M
    · have := h8 hM
      have hmax : max 1 ((M + 9) / 10) = (M + 9) / 10 := by
        apply max_eq_right; omega
      rw [hmax]; omega
    · have hM0 : M = 0 := by omega
      subst hM0
      have hn : n = 0 := by simpa [acceptedOf_zero] using h4.symm
      subst hn
      have hst : loop fuel (RandString.init src 0) = some (RandString.init src 0) := by
        cases fuel <;> simp [loop, RandString.init]
      rw [hst] at h1
      cases h1
      simp [RandString.init, Source.Int63]
  · simpa [RandString.init, Source.Int63] using h9

theorem reverse_take_eq_range (l : List Nat) (n : Nat) (h : n ≤ l.length) :
    ((l.take n).reverse.map symbol) =
      (List.range n).map (fun i => symbol (l.getD (n - 1 - i) 0)) := by
  apply List.ext_getElem
  · simp [h]
  · intro i h1 h2
    simp only [List.length_map, List.length_reverse, List.length_take, List.length_range] at h1 h2
    have hi : i < n := by omega
    simp only [List.getElem_map, List.getElem_reverse, List.getElem_take, List.getElem_range,
      List.length_take]
    congr 1
    have hmin : min n l.length = n := by omega
    rw [List.getD_eq_getElem?_getD, List.getElem?_eq_getElem (by omega)]
    simp [hmin]

/-- A loop entered with a position to fill and only candidates `36..63` ahead never ends. -/
theorem loop_stuck : ∀ (fuel : Nat) (st : LoopState), 0 ≤ st.i →
    (∀ j, 36 ≤ upcoming st j) → loop fuel st = none := by
  intro fuel
  induction fuel with
  | zero =>
    intro st hi _
    have : ¬ st.i < 0 := by omega
    simp [loop, this]
  | succ f ih =>
    intro st hi hup
    have hneg : ¬ st.i < 0 := by omega
    have hc : letterAt ((refill st).cache &&& letterIdxMask) = none := by
      cases hc : letterAt ((refill st).cache &&& letterIdxMask) with
      | none => rfl
      | some c =>
        have h1 := (letterAt_some hc).1
        rw [refill_test] at h1
        have := hup 0
        omega
    have hbi : (body st).i = st.i := by rw [body_none hc]; simp only [refill_i]
    simp only [loop, hneg, if_false]
    apply ih (body st) (by omega)
    intro j
    rw [upcoming_body]
    exact hup (j + 1)

theorem candidate_allOnes (j : Nat) : candidate allOnes j = 63 := by
  have hr : j % 10 < 10 := Nat.mod_lt _ (by decide)
  simp only [candidate, draw, allOnes]
  generalize j % 10 = r at hr
  interval_cases r <;> decide

theorem candidate_allZeros (j : Nat) : candidate allZeros j = 0 := by
  simp [candidate, draw, allZeros]

theorem count_selecting : ∀ c ∈ letterBytes,
    ((List.range 64).filter (fun v => decide (letterAt v = some c))).length = 1 := by
  decide

theorem count_accepting :
    ((List.range 64).filter (fun v => (letterAt v).isSome)).length = 36 := by
  decide

theorem run_cases (sys : System) (name : GoString) (args : List GoString) (dir : GoString)
    (env : List GoString) :
    (Run sys (name :: args) dir env).spawned = [Run.build sys name args dir env] ∧
    ((sys.run (Run.build sys name args dir env)).err = none →
      (Run sys (name :: args) dir env).output =
          some (sys.run (Run.build sys name args dir env)).stdout ∧
        (Run sys (name :: args) dir env).err = none) ∧
    (∀ e, (sys.run (Run.build sys name args dir env)).err = some e →
      (Run sys (name :: args) dir env).output = none ∧
        (Run sys (name :: args) dir env).err = some e) := by
  refine ⟨?_, ?_, ?_⟩
  · simp only [Run]; split <;> rfl
  · intro h; simp [Run, h]
  · intro e h; simp [Run, h]

theorem RandString_zero_eq (fuel : Nat) (src : Source) :
    RandString fuel src 0 = some ([], { src with pos := src.pos + 1 }) := by
  cases fuel <;> simp [RandString, loop, RandString.init, Source.Int63]

/-! ## An additive source always yields accepted candidates -/

theorem low_group_step (u : Nat → Nat)
    (hrec : ∀ k, u (k + 607) % 2 ^ 64 = (u k + u (k + 334)) % 2 ^ 64) (k : Nat) :
    u (k + 607) % 64 = (u k % 64 + u (k + 334) % 64) % 64 := by
  have hdvd : 64 ∣ 2 ^ 64 := ⟨2 ^ 58, by norm_num⟩
  have h := congrArg (fun x => x % 64) (hrec k)
  simp only [Nat.mod_mod_of_dvd _ hdvd] at h
  rw [h, Nat.add_mod]

/-- Among any `607 * 28 + 1` consecutive outputs of the recurrence one has its low six
bits below 36: while they all stay at 36 or more, the distance of the low six bits from 63
grows by at least one every 607 outputs. -/
theorem exists_low_group (u : Nat → Nat)
    (hrec : ∀ k, u (k + 607) % 2 ^ 64 = (u k + u (k + 334)) % 2 ^ 64) (K : Nat) :
    ∃ k, K ≤ k ∧ k < K + window ∧ u k % 64 < 36 := by
  by_contra hne
  have hall : ∀ k, K ≤ k → k < K + window → 36 ≤ u k % 64 := by
    intro k h1 h2
    by_contra hlt
    exact hne ⟨k, h1, h2, by omega⟩
  have hgrow : ∀ m, m ≤ 28 → u (K + 607 * m) % 64 + m ≤ 63 := by
    intro m
    induction m with
    | zero =>
      intro _
      have := Nat.mod_lt (u (K + 607 * 0)) (by decide : 0 < 64)
      omega
    | succ m ih =>
      intro hm
      have h1 := ih (by omega)
      have ha := hall (K + 607 * m) (by omega) (by unfold window; omega)
      have hb := hall (K + 607 * m + 334) (by omega) (by unfold window; omega)
      have hb' := Nat.mod_lt (u (K + 607 * m + 334)) (by decide : 0 < 64)
      have hstep := low_group_step u hrec (K + 607 * m)
      have hidx : K + 607 * (m + 1) = K + 607 * m + 607 := by ring
      rw [hidx, hstep]
      omega
  have h28 := hgrow 28 (le_refl _)
  have hlast := hall (K + 607 * 28) (by omega) (by unfold window; omega)
  omega

theorem candidate_low_group (src : Source) (k : Nat) :
    candidate src (10 * k) = src.draws (src.pos + k) % 64 := by
  have h1 : 10 * k / 10 = k := by omega
  have h2 : 10 * k % 10 = 0 := by omega
  have hdvd : 64 ∣ 2 ^ 63 := ⟨2 ^ 57, by norm_num⟩
  have hand : ∀ x : Nat, x &&& 63 = x % 64 := fun x => Nat.and_pow_two_sub_one_eq_mod x 6
  simp only [candidate, draw, h1, h2, Nat.mul_zero, Nat.shiftRight_zero, hand,
    Nat.mod_mod_of_dvd _ hdvd]

theorem acceptedOf_pos_of_exists (u : Nat → Nat) (D m : Nat) (hm : m < D) (h : u m < 36) :
    1 ≤ (acceptedOf u D).length := by
  have hmem : u m ∈ acceptedOf u D := by
    unfold acceptedOf
    rw [List.mem_filter]
    exact ⟨List.mem_map.mpr ⟨m, List.mem_range.mpr hm, rfl⟩, by simpa using h⟩
  exact List.length_pos_of_mem hmem

/-- An additive source has at least `n` accepted candidates among its next
`10 * window * n` candidates. -/
theorem additive_accepted (src : Source) (h : src.additive) (n : Nat) :
    n ≤ (accepted src (10 * window * n)).length := by
  induction n with
  | zero => exact Nat.zero_le _
  | succ n ih =>
    have hsplit : 10 * window * (n + 1) = 10 * window * n + 10 * window := by ring
    unfold accepted at ih ⊢
    rw [hsplit, acceptedOf_add, List.length_append]
    have hrec : ∀ k, (fun j => src.draws (src.pos + j)) (k + 607) % 2 ^ 64 =
        ((fun j => src.draws (src.pos + j)) k +
          (fun j => src.draws (src.pos + j)) (k + 334)) % 2 ^ 64 := by
      intro k
      have := h (src.pos + k)
      simpa [Nat.add_assoc] using this
    obtain ⟨k, hk1, hk2, hk3⟩ :=
      exists_low_group (fun j => src.draws (src.pos + j)) hrec (window * n)
    have hone : 1 ≤ (acceptedOf (fun j => candidate src (10 * window * n + j))
        (10 * window)).length := by
      apply acceptedOf_pos_of_exists _ _ (10 * (k - window * n)) (by omega)
      have hidx : 10 * window * n + 10 * (k - window * n) = 10 * k := by
        have : window * n + (k - window * n) = k := by omega
        calc 10 * window * n + 10 * (k - window * n)
            = 10 * (window * n + (k - window * n)) := by ring
          _ = 10 * k := by rw [this]
      simp only [hidx, candidate_low_group]
      exact hk3
    omega

theorem lagged_additive (seed : Nat → Nat) (p : Nat) :
    Source.additive { draws := lagged seed, pos := p } := by
  intro k
  have h1 : ¬ k + 607 < 607 := by omega
  have h2 : k + 607 - 607 = k := by omega
  have h3 : k + 607 - 273 = k + 334 := by omega
  show lagged seed (k + 607) % 2 ^ 64 = (lagged seed k + lagged seed (k + 334)) % 2 ^ 64
  rw [lagged, if_neg h1, h2, h3, Nat.mod_mod]

/-! ## The environment a subprocess is started with -/

theorem dedupEnv_sublist : ∀ l : List GoString, (dedupEnv l).Sublist l := by
  intro l
  induction l with
  | nil => exact List.Sublist.slnil
  | cons kv rest ih =>
    unfold dedupEnv
    split
    · exact List.Sublist.cons _ ih
    · exact List.Sublist.cons₂ _ ih

theorem dedupEnv_keys_nodup : ∀ l : List GoString, ((dedupEnv l).filterMap envKey).Nodup := by
  intro l
  induction l with
  | nil => simp [dedupEnv]
  | cons kv rest ih =>
    unfold dedupEnv
    split
    · exact ih
    · rename_i hcond
      cases hk : envKey kv with
      | none => rw [List.filterMap_cons_none hk]; exact ih
      | some k =>
        rw [List.filterMap_cons_some hk, List.nodup_cons]
        refine ⟨?_, ih⟩
        intro hmem
        obtain ⟨e, he, hek⟩ := List.mem_filterMap.mp hmem
        apply hcond
        have hrest : e ∈ rest := (dedupEnv_sublist rest).subset he
        simp only [hk, Option.isSome_some, Bool.true_and, List.any_eq_true]
        exact ⟨e, hrest, by simp [hek]⟩

theorem dedupEnv_last_mem : ∀ (l1 : List GoString) (e : GoString) (l2 : List GoString),
    (∀ e' ∈ l2, envKey e' ≠ envKey e) → e ∈ dedupEnv (l1 ++ e :: l2) := by
  intro l1
  induction l1 with
  | nil =>
    intro e l2 h
    have hcond : ¬ ((envKey e).isSome && l2.any (fun kv' => envKey kv' == envKey e)) = true := by
      intro hc
      simp only [Bool.and_eq_true, List.any_eq_true, beq_iff_eq] at hc
      obtain ⟨-, e', he', hk⟩ := hc
      exact h e' he' hk
    simp only [List.nil_append, dedupEnv, hcond]
    exact List.mem_cons_self _ _
  | cons x l1 ih =>
    intro e l2 h
    simp only [List.cons_append, dedupEnv]
    split
    · exact ih e l2 h
    · exact List.mem_cons_of_mem _ (ih e l2 h)

/-! ## The claims about `RandString` -/

/-- C1: whenever the call `RandString(n)` returns, the returned string has length exactly
`n` and each of its characters is one of the 36 symbols `0-9a-z`; `RandString(0)` returns
the empty string. -/
theorem RandString_length_alphabet (fuel : Nat) (src : Source) (n : Nat) (s : GoString)
    (src' : Source) (h : RandString fuel src n = some (s, src')) :
    s.length = n ∧ (∀ c ∈ s, c ∈ letterBytes ∧ isLowerAlnum c = true) ∧
      letterBytes.length = 36 ∧ (n = 0 → s = []) ∧
      (∃ src0, RandString fuel src 0 = some ([], src0)) := by
  unfold RandString at h
  cases hl : loop fuel (RandString.init src n) with
  | none => rw [hl] at h; cases h
  | some st =>
    rw [hl, Option.map_some'] at h
    cases h
    obtain ⟨⟨hlen, -, -, hfill⟩, hneg⟩ := loop_inv fuel _ _ (init_inv src n) hl
    refine ⟨hlen, ?_, letterBytes_length, ?_, ?_⟩
    · intro c hc
      obtain ⟨k, hk, rfl⟩ := List.getElem_of_mem hc
      obtain ⟨c', hc', hget⟩ := hfill k (by omega) (by omega)
      rw [List.getElem?_eq_getElem hk] at hget
      cases hget
      exact ⟨hc', letterBytes_alnum _ hc'⟩
    · intro hn
      exact List.length_eq_zero.mp (by omega)
    · refine ⟨src.Int63.2, ?_⟩
      cases fuel <;> simp [RandString, loop, RandString.init]

theorem RandString_length_alphabet_witness :
    RandString 3 allZeros 3 = some ([48, 48, 48], { draws := fun _ => 0, pos := 1 }) ∧
      ([48, 48, 48] : GoString).length = 3 ∧
      (∀ c ∈ ([48, 48, 48] : GoString), c ∈ letterBytes ∧ isLowerAlnum c = true) :=
  have h : RandString 3 allZeros 3 = some ([48, 48, 48], { draws := fun _ => 0, pos := 1 }) :=
    rfl
  ⟨h, (RandString_length_alphabet 3 allZeros 3 _ _ h).1,
    (RandString_length_alphabet 3 allZeros 3 _ _ h).2.1⟩

/-- C2: the loop body accepts the 6-bit candidate `v` exactly when `v < 36`; an accepted
`v` writes alphabet symbol number `v` itself and a rejected one writes nothing (no
reduction modulo 36); each of the 36 symbols is selected by exactly one of the 64 candidate
values and 28 values select none, so that among the accepted values every symbol has the
share `1/36`. -/
theorem body_selects_without_bias :
    (∀ st : LoopState,
      (refill st).cache &&& letterIdxMask < 64 ∧
      ((refill st).cache &&& letterIdxMask < 36 →
        body st = { refill st with
          i := st.i - 1, b := st.b.set st.i.toNat (symbol ((refill st).cache &&& letterIdxMask)),
          cache := (refill st).cache >>> letterIdxBits, remain := (refill st).remain - 1 }) ∧
      (36 ≤ (refill st).cache &&& letterIdxMask →
        (body st).b = st.b ∧ (body st).i = st.i ∧ (body st).src = (refill st).src)) ∧
    (∀ v, v < 64 → ((letterAt v).isSome = true ↔ v < 36)) ∧
    (∀ v, v < 36 → letterAt v = some (symbol v) ∧ letterBytes[v]? = some (symbol v)) ∧
    (∀ v, 36 ≤ v → v < 64 → letterAt v = none ∧ letterAt v ≠ letterAt (v % 36)) ∧
    (∀ c ∈ letterBytes,
      ((List.range 64).filter (fun v => decide (letterAt v = some c))).length = 1) ∧
    ((List.range 64).filter (fun v => decide (letterAt v = none))).length = 28 ∧
    (∀ c ∈ letterBytes,
      (((List.range 64).filter (fun v => decide (letterAt v = some c))).length : ℚ) /
        (((List.range 64).filter (fun v => (letterAt v).isSome)).length : ℚ) = 1 / 36) := by
  refine ⟨?_, by decide, by decide, by decide, count_selecting, by decide, ?_⟩
  · intro st
    refine ⟨?_, fun h => body_some (letterAt_of_lt h), fun h => ?_⟩
    · have := @Nat.and_le_right (refill st).cache letterIdxMask
      rw [letterIdxMask_eq] at this ⊢
      omega
    · rw [body_none (letterAt_of_ge h)]; exact ⟨refill_b st, refill_i st, rfl⟩
  · intro c hc
    rw [count_selecting c hc, count_accepting]
    norm_num

/-- C3: on the package's entropy source, a generator made by `rand.NewSource` whose
draws obey the additive recurrence, `RandString(n)` terminates and returns a string for
every `n` and every state of the generator: at most `10 * window * n` executions of the
loop body are needed, and any larger fuel gives the same kind of result. -/
theorem RandString_terminates (src : Source) (h : src.additive) (n fuel : Nat)
    (hf : 10 * window * n ≤ fuel) :
    ∃ (s : GoString) (src' : Source), RandString fuel src n = some (s, src') ∧
      s.length = n := by
  have hacc := additive_accepted src h n
  obtain ⟨src', M, h1, -⟩ := RandString_run src n (10 * window * n) fuel hacc hf
  exact ⟨_, src', h1, by simp [hacc]⟩

theorem RandString_terminates_witness :
    laggedOnes.additive ∧
      ∃ (s : GoString) (src' : Source),
        RandString (10 * window * 19) laggedOnes 19 = some (s, src') ∧ s.length = 19 :=
  ⟨lagged_additive _ 0,
    RandString_terminates laggedOnes (lagged_additive _ 0) 19 (10 * window * 19) (le_refl _)⟩

/-- The recurrence is needed: on the stream all of whose draws are `2^63 - 1`, which obeys
no such recurrence and which no generator of `rand.NewSource` yields, every 6-bit
candidate is 63 and the loop of `RandString(1)` runs forever. -/
theorem loop_allOnes_runs_forever :
    ¬ allOnes.additive ∧ ¬ ∃ fuel, (RandString fuel allOnes 1).isSome = true := by
  constructor
  · intro h
    have := h 0
    simp [allOnes] at this
  · rintro ⟨fuel, h⟩
    have hstuck : loop fuel (RandString.init allOnes 1) = none :=
      loop_stuck fuel _ (by simp [RandString.init])
        (fun j => by rw [upcoming_init, candidate_allOnes]; decide)
    simp [RandString, hstuck] at h

/-- C4, as the code has it: `RandString(0)` returns the empty string after exactly one
draw, the one of the loop's init clause; the source is left one draw further. -/
theorem RandString_zero (fuel : Nat) (src : Source) :
    RandString fuel src 0 = some ([], { src with pos := src.pos + 1 }) :=
  RandString_zero_eq fuel src

/-- C4 fails as stated: `RandString(0)` takes a draw, and the source after the call is not
the source before it. -/
theorem RandString_zero_takes_a_draw :
    ∃ src', RandString 0 allZeros 0 = some ([], src') ∧ src'.pos = allZeros.pos + 1 ∧
      src' ≠ allZeros :=
  ⟨{ allZeros with pos := allZeros.pos + 1 }, RandString_zero_eq 0 allZeros, rfl,
    fun h => absurd (congrArg Source.pos h) (by decide)⟩

/-- C10: with `d_k` the successive draws, `c(10k+j) = (d_k >> 6j) & 63` the candidates and
`a_0, a_1, ...` the candidates below 36, whenever at least `n` such candidates exist
`RandString(n)` returns the string holding symbol number `a(n-1-i)` at position `i`; it
examines the candidates up to the `n`-th accepted one and no further, `M` of them, and
takes a draw per ten candidates examined (one draw when none is examined). -/
theorem RandString_eq_referenceString (src : Source) (n N fuel : Nat)
    (h : n ≤ (accepted src N).length) (hf : N ≤ fuel) :
    (∀ k j, j < 10 → candidate src (10 * k + j) = (draw src k >>> (6 * j)) &&& 63) ∧
    ∃ (src' : Source) (M : Nat),
      RandString fuel src n = some (referenceString src N n, src') ∧
      (∀ i, i < n → (referenceString src N n)[i]? =
        ((accepted src N)[n - 1 - i]?).map symbol) ∧
      M ≤ N ∧ (accepted src M).length = n ∧
      (∀ M', M' < M → (accepted src M').length < n) ∧
      src'.pos = src.pos + max 1 ((M + 9) / 10) ∧ src'.draws = src.draws := by
  constructor
  · intro k j hj
    have h1 : (10 * k + j) / 10 = k := by omega
    have h2 : (10 * k + j) % 10 = j := by omega
    simp [candidate, h1, h2]
  · obtain ⟨src', M, h1, h2, h3, h4, h5, h6⟩ := RandString_run src n N fuel h hf
    refine ⟨src', M, ?_, ?_, h2, h3, h4, h5, h6⟩
    · rw [h1, reverse_take_eq_range _ _ h]; rfl
    · intro i hi
      have hlt : n - 1 - i < (accepted src N).length := by omega
      simp [referenceString, hi, List.getD_eq_getElem?_getD, List.getElem?_eq_getElem hlt]

theorem RandString_eq_referenceString_witness :
    11 ≤ (accepted seed42 20).length ∧
      accepted seed42 20 = [19, 31, 22, 6, 11, 25, 27, 28, 31, 4, 33] ∧
      referenceString seed42 20 11 = lit "x4vsrpb6mvj" ∧
      ∃ (src' : Source), RandString 25 seed42 11 = some (lit "x4vsrpb6mvj", src') ∧
        src'.pos = 2 :=
  ⟨by decide, by decide, by decide,
    match (RandString_eq_referenceString seed42 11 20 25 (by decide) (by decide)).2 with
    | ⟨src', M, h1, _, hM, hlen, _, hpos, _⟩ =>
      have hM20 : M = 20 := by
        have h19 : (accepted seed42 19).length = 10 := by decide
        by_contra hne
        have hle : M ≤ 19 := by omega
        have := acceptedOf_length_mono (candidate seed42) hle
        unfold accepted at hlen h19
        omega
      ⟨src', h1.trans (by rw [show referenceString seed42 20 11 = lit "x4vsrpb6mvj" by decide]),
        by rw [hpos, hM20]; rfl⟩⟩

/-- The docstring of `RandString` (lines 55-57) calls the result DNS-1035 label compliant,
and a DNS-1035 label starts with a letter; on the source `seed42` the code returns for
length 10 a string that starts with the digit `4`. -/
theorem RandString_may_start_with_digit :
    (RandString 20 seed42 10).map Prod.fst = some (lit "4vsrpb6mvj") := by
  decide

/-! ## The claims about `Pformat` -/

/-- C5: for an input that is a string `s`, `Pformat` returns `s` itself, byte for byte,
whatever the serialization of the value would give, and logs nothing. -/
theorem Pformat_string (value : Value) (s : GoString) (h : value.asString = some s) :
    Pformat value = (s, []) := by
  simp [Pformat, h]

theorem Pformat_string_witness :
    Pformat { asString := some [34, 92, 10, 255],
              marshalIndent := .error (.library (lit "invalid UTF-8")),
              sprintV := [34, 92, 10, 255] } = ([34, 92, 10, 255], []) ∧
      Pformat { asString := some [], marshalIndent := .ok [34, 34], sprintV := [] }
        = ([], []) :=
  ⟨Pformat_string _ _ rfl, Pformat_string _ _ rfl⟩

/-- C6, as the code has it: for a non-string input whose serialization fails, `Pformat`
returns exactly the default textual representation `fmt.Sprintf("%v", value)`, which is
non-empty exactly when that representation is, and reports the failure only in one
warning line of the log. -/
theorem Pformat_fallback (value : Value) (err : GoError) (h1 : value.asString = none)
    (h2 : value.marshalIndent = .error err) :
    (Pformat value).1 = value.sprintV ∧
      ((Pformat value).1 ≠ [] ↔ value.sprintV ≠ []) ∧
      (Pformat value).2 =
        [{ level := .warning,
           msg := lit "Couldn't pretty format " ++ value.sprintV ++ lit ", error: " ++
             err.Error }] := by
  simp [Pformat, h1, h2]

theorem Pformat_fallback_witness :
    (Pformat { asString := none, marshalIndent := .error (.library (lit "unsupported type")),
               sprintV := lit "0xc000012345" }).1 = lit "0xc000012345" :=
  (Pformat_fallback { asString := none,
                      marshalIndent := .error (.library (lit "unsupported type")),
                      sprintV := lit "0xc000012345" } _ rfl rfl).1

/-- C6 fails as stated: for the non-string value `silentValue`, whose serialization fails
and whose default textual representation is empty, `Pformat` returns the empty string. -/
theorem Pformat_silentValue_empty :
    silentValue.asString = none ∧
      silentValue.marshalIndent = .error (.library (lit "json: error calling MarshalJSON")) ∧
      (Pformat silentValue).1 = [] :=
  ⟨rfl, rfl, rfl⟩

/-! ## The claims about `Run` -/

/-- C7: for every working directory and every list of extra environment entries, `Run`
on the empty command returns the error "Command cannot be empty." and no output bytes, and
executes no command. -/
theorem Run_empty_command (sys : System) (dir : GoString) (env : List GoString) :
    (Run sys [] dir env).err = some (errors.New (lit "Command cannot be empty.")) ∧
      (Run sys [] dir env).output = none ∧ (Run sys [] dir env).spawned = [] :=
  ⟨rfl, rfl, rfl⟩

/-- C8: for a non-empty command `Run` executes one command; when that execution succeeds
it returns the captured standard output and no error; when it fails it returns no output
and the error of the execution itself; and what it returns does not depend on what was
captured from standard error. -/
theorem Run_result (sys : System) (command : List GoString) (dir : GoString)
    (env : List GoString) (h : command ≠ []) :
    ∃ cmd, (Run sys command dir env).spawned = [cmd] ∧
      ((sys.run cmd).err = none →
        (Run sys command dir env).output = some (sys.run cmd).stdout ∧
          (Run sys command dir env).err = none) ∧
      (∀ e, (sys.run cmd).err = some e →
        (Run sys command dir env).output = none ∧ (Run sys command dir env).err = some e) ∧
      (∀ sys' : System, sys'.Environ = sys.Environ →
        (∀ c, (sys'.run c).err = (sys.run c).err ∧ (sys'.run c).stdout = (sys.run c).stdout) →
        (Run sys' command dir env).output = (Run sys command dir env).output ∧
          (Run sys' command dir env).err = (Run sys command dir env).err) := by
  cases command with
  | nil => exact absurd rfl h
  | cons name args =>
    obtain ⟨h1, h2, h3⟩ := run_cases sys name args dir env
    refine ⟨_, h1, h2, h3, ?_⟩
    intro sys' henv hrun
    have hb : Run.build sys' name args dir env = Run.build sys name args dir env := by
      simp [Run.build, henv]
    obtain ⟨-, h2', h3'⟩ := run_cases sys' name args dir env
    rw [hb] at h2' h3'
    obtain ⟨he, ho⟩ := hrun (Run.build sys name args dir env)
    cases hc : (sys.run (Run.build sys name args dir env)).err with
    | none =>
      obtain ⟨a1, a2⟩ := h2 hc
      obtain ⟨b1, b2⟩ := h2' (he.trans hc)
      rw [a1, a2, b1, b2, ho]
      exact ⟨rfl, rfl⟩
    | some e =>
      obtain ⟨a1, a2⟩ := h3 e hc
      obtain ⟨b1, b2⟩ := h3' e (he.trans hc)
      rw [a1, a2, b1, b2]
      exact ⟨rfl, rfl⟩

theorem Run_result_witness :
    (Run failingSystem [lit "false"] [] []).output = none ∧
      (Run failingSystem [lit "false"] [] []).err = some (.library (lit "exit status 1")) :=
  match Run_result failingSystem [lit "false"] [] [] (by decide) with
  | ⟨cmd, _, _, h3, _⟩ => h3 (.library (lit "exit status 1")) rfl

/-- C9, as the code has it: for a non-empty command `Run` hands `exec.Command` the first
element as the program and the remaining elements, in order, as its arguments, so that the
argument vector is the command and the executable is the first element, looked up on the
search path when it has no directory part; the `Env` it sets is the inherited environment
followed by the extra entries in their order, nothing removed; the subprocess is started
with those entries in that order less every entry that has a later entry with the same
key, so at most one entry per key, the last one; the directory is the override when that
is non-empty and is left unset otherwise. -/
theorem Run_builds_command (sys : System) (command : List GoString) (dir : GoString)
    (env : List GoString) (h : command ≠ []) :
    ∃ cmd, (Run sys command dir env).spawned = [cmd] ∧
      cmd.Args = command ∧ cmd.Args.tail = command.tail ∧
      (∀ name, command.head? = some name →
        cmd.Path = if filepath.Base name = name then .lookPath name else .path name) ∧
      cmd.Env = sys.Environ ++ env ∧ (∀ e ∈ sys.Environ, e ∈ cmd.Env) ∧
      cmd.environ = dedupEnv (sys.Environ ++ env) ∧
      cmd.environ.Sublist (sys.Environ ++ env) ∧
      (cmd.environ.filterMap envKey).Nodup ∧
      (∀ l1 e l2, sys.Environ ++ env = l1 ++ e :: l2 →
        (∀ e' ∈ l2, envKey e' ≠ envKey e) → e ∈ cmd.environ) ∧
      (dir ≠ [] → cmd.Dir = dir) ∧ (dir = [] → cmd.Dir = []) := by
  cases command with
  | nil => exact absurd rfl h
  | cons name args =>
    have henv : (Run.build sys name args dir env).Env = sys.Environ ++ env := by
      by_cases hd : dir = [] <;> simp [Run.build, exec.Command, hd]
    have hargs : (Run.build sys name args dir env).Args = name :: args := by
      by_cases hd : dir = [] <;> simp [Run.build, exec.Command, hd]
    have hpath : (Run.build sys name args dir env).Path =
        if filepath.Base name = name then .lookPath name else .path name := by
      by_cases hd : dir = [] <;> simp [Run.build, exec.Command, hd]
    have hdir : (Run.build sys name args dir env).Dir = dir := by
      by_cases hd : dir = [] <;> simp [Run.build, exec.Command, hd]
    have henviron : (Run.build sys name args dir env).environ =
        dedupEnv (sys.Environ ++ env) := by
      rw [Cmd.environ, henv]
    refine ⟨Run.build sys name args dir env, (run_cases sys name args dir env).1, hargs,
      by rw [hargs], ?_, henv, ?_, henviron, ?_, ?_, ?_, fun _ => hdir, fun hd => by
        rw [hdir, hd]⟩
    · intro name' hname
      simp only [List.head?_cons, Option.some.injEq] at hname
      subst hname
      exact hpath
    · intro e he
      rw [henv]
      exact List.mem_append_left _ he
    · rw [henviron]; exact dedupEnv_sublist _
    · rw [henviron]; exact dedupEnv_keys_nodup _
    · intro l1 e l2 hl hlast
      rw [henviron, hl]
      exact dedupEnv_last_mem l1 e l2 hlast

theorem Run_builds_command_witness :
    ∃ cmd, (Run fooSystem [lit "ls", lit "-l"] (lit "/tmp") [lit "FOO=2"]).spawned = [cmd] ∧
      cmd.Path = .lookPath (lit "ls") ∧ cmd.Args = [lit "ls", lit "-l"] ∧
      cmd.Env = [lit "PATH=/bin", lit "FOO=1", lit "FOO=2"] ∧
      cmd.environ = [lit "PATH=/bin", lit "FOO=2"] ∧ cmd.Dir = lit "/tmp" :=
  match Run_builds_command fooSystem [lit "ls", lit "-l"] (lit "/tmp") [lit "FOO=2"]
      (by decide) with
  | ⟨cmd, h1, h2, _, h4, h5, _, h7, _, _, _, h11, _⟩ =>
    ⟨cmd, h1, (h4 (lit "ls") rfl).trans (by decide), h2, h5.trans (by decide),
      h7.trans (by decide), h11 (by decide)⟩

/-- C9 fails as stated: with `FOO=1` inherited and the extra entry `FOO=2`, the subprocess
of `Run` is started with `PATH=/bin`, `FOO=2` only; the inherited entry `FOO=1` is
removed. -/
theorem Run_child_environment_drops_inherited :
    lit "FOO=1" ∈ fooSystem.Environ ∧
      (Run fooSystem [lit "/usr/bin/env"] [] [lit "FOO=2"]).spawned.map Cmd.environ =
        [[lit "PATH=/bin", lit "FOO=2"]] ∧
      ¬ ∃ cmd ∈ (Run fooSystem [lit "/usr/bin/env"] [] [lit "FOO=2"]).spawned,
          lit "FOO=1" ∈ cmd.environ := by
  decide

end Util
